import Mathlib

/-!
# Verification of the line-delimited JSON framing layer (pixl-json-stream)

This development shallowly embeds the module's read path (incremental chunk
buffering, delimiter splitting, bounded-buffer truncation, record
classification and decoding) and its write path (serialize, append delimiter,
write to sink, backpressure boolean), and proves properties of the embedding.

Strings are modelled as `List Char` (JS strings are sequences of UTF-16 code
units; all inputs of interest here are sequences of scalar values).  The JSON
parse/serialize primitives are external collaborators of the module (the
module calls the platform's `JSON.parse` / `JSON.stringify`); they are
modelled concretely below, with JSON numbers restricted to integers.
-/

/-- Strings are modelled as lists of characters. -/
abbrev Str := List Char

/-- Whitespace recognised by the JSON grammar (space, tab, line feed,
carriage return); used by the modelled `JSON.parse`. -/
def jsonWs (c : Char) : Bool :=
  c == ' ' || c == '\t' || c == '\n' || c == '\r'

/-- Whitespace recognised by the JS regular-expression class `\s`
(used by the record pattern and the non-whitespace test in the source). -/
def jsRegexWs (c : Char) : Bool :=
  let n := c.toNat
  n == 9 || n == 10 || n == 11 || n == 12 || n == 13 || n == 32 ||
  n == 0xa0 || n == 0x1680 || (0x2000 ≤ n && n ≤ 0x200a) ||
  n == 0x2028 || n == 0x2029 || n == 0x202f || n == 0x205f ||
  n == 0x3000 || n == 0xfeff

/-- JSON values, as produced by the modelled `JSON.parse`.  Numbers are
restricted to integers in this model (the module treats decoded values
opaquely, so the restriction does not affect the framing logic). -/
inductive JsValue where
  | jnull
  | jbool (b : Bool)
  | jnum (n : Int)
  | jstr (s : Str)
  | jarr (elems : List JsValue)
  | jobj (members : List (Str × JsValue))

/-- Whether a value is a JSON object (serialization begins with an opening
brace). -/
def JsValue.isObj : JsValue → Bool
  | .jobj _ => true
  | _ => false

/-- JS truthiness of a decoded value, as tested by `if (json)` in the source
(`null`, `false`, `0` and the empty string are falsy). -/
def jsTruthy : JsValue → Bool
  | .jnull => false
  | .jbool b => b
  | .jnum n => n != 0
  | .jstr s => !s.isEmpty
  | .jarr _ => true
  | .jobj _ => true

/-- Drop leading JSON whitespace. -/
def skipJsonWs (s : Str) : Str := s.dropWhile jsonWs

/-- Value of a hexadecimal digit. -/
def hexVal (c : Char) : Option Nat :=
  if '0' ≤ c && c ≤ '9' then some (c.toNat - 48)
  else if 'a' ≤ c && c ≤ 'f' then some (c.toNat - 87)
  else if 'A' ≤ c && c ≤ 'F' then some (c.toNat - 55)
  else none

/-- Parse the body of a JSON string literal (the opening quote already
consumed); returns the decoded characters and the remaining input. -/
def parseStringRest : Str → Except String (Str × Str)
  | [] => .error "Unterminated string in JSON"
  | c :: rest =>
    if c = '"' then .ok ([], rest)
    else if c = '\\' then
      match rest with
      | [] => .error "Unterminated string in JSON"
      | e :: rest1 =>
        if e = 'u' then
          match rest1 with
          | h1 :: h2 :: h3 :: h4 :: rest2 =>
            match hexVal h1, hexVal h2, hexVal h3, hexVal h4 with
            | some a, some b, some c2, some d =>
              (parseStringRest rest2).map
                (fun p => (Char.ofNat (((a * 16 + b) * 16 + c2) * 16 + d) :: p.1, p.2))
            | _, _, _, _ => .error "Bad Unicode escape in JSON"
          | _ => .error "Bad Unicode escape in JSON"
        else
          match (if e = '"' then some '"'
                 else if e = '\\' then some '\\'
                 else if e = '/' then some '/'
                 else if e = 'b' then some (Char.ofNat 8)
                 else if e = 'f' then some (Char.ofNat 12)
                 else if e = 'n' then some '\n'
                 else if e = 'r' then some '\r'
                 else if e = 't' then some '\t'
                 else none) with
          | some d => (parseStringRest rest1).map (fun p => (d :: p.1, p.2))
          | none => .error "Bad escaped character in JSON"
    else if c.toNat < 32 then .error "Bad control character in JSON string"
    else (parseStringRest rest).map (fun p => (c :: p.1, p.2))

/-- Numeric value of a digit string. -/
def digitsToNat (ds : Str) : Nat := ds.foldl (fun a c => a * 10 + (c.toNat - 48)) 0

/-- Parse a JSON number.  The model accepts integer literals only; a
fractional part or exponent is rejected (documented restriction of the
modelled collaborator). -/
def parseNumber (s : Str) : Except String (JsValue × Str) :=
  let (neg, s1) := match s with
    | '-' :: t => (true, t)
    | _ => (false, s)
  match s1 with
  | [] => .error "Unexpected end of JSON input"
  | c :: _ =>
    if c.isDigit then
      let ds := s1.takeWhile Char.isDigit
      let rest := s1.dropWhile Char.isDigit
      if ds.length > 1 && ds.headD '0' == '0' then
        .error "Unexpected number with leading zero in JSON"
      else
        match rest with
        | '.' :: _ => .error "Non-integer numbers unsupported in this model"
        | 'e' :: _ => .error "Non-integer numbers unsupported in this model"
        | 'E' :: _ => .error "Non-integer numbers unsupported in this model"
        | _ =>
          .ok (.jnum (if neg then -(digitsToNat ds : Int) else (digitsToNat ds : Int)), rest)
    else .error "Unexpected token in JSON"

mutual

/-- Recursive-descent JSON value parser (fuelled; fuel is structural). -/
def parseVal : Nat → Str → Except String (JsValue × Str)
  | 0, _ => .error "JSON too deeply nested for model"
  | fuel + 1, s =>
    match skipJsonWs s with
    | [] => .error "Unexpected end of JSON input"
    | c :: rest =>
      if c = '{' then
        match skipJsonWs rest with
        | '}' :: rest2 => .ok (.jobj [], rest2)
        | _ => (parseMembers fuel rest).map (fun p => (JsValue.jobj p.1, p.2))
      else if c = '[' then
        match skipJsonWs rest with
        | ']' :: rest2 => .ok (.jarr [], rest2)
        | _ => (parseItems fuel rest).map (fun p => (JsValue.jarr p.1, p.2))
      else if c = '"' then
        (parseStringRest rest).map (fun p => (JsValue.jstr p.1, p.2))
      else if c = 't' then
        if ['r', 'u', 'e'].isPrefixOf rest then .ok (.jbool true, rest.drop 3)
        else .error "Unexpected token in JSON"
      else if c = 'f' then
        if ['a', 'l', 's', 'e'].isPrefixOf rest then .ok (.jbool false, rest.drop 4)
        else .error "Unexpected token in JSON"
      else if c = 'n' then
        if ['u', 'l', 'l'].isPrefixOf rest then .ok (.jnull, rest.drop 3)
        else .error "Unexpected token in JSON"
      else if c = '-' || c.isDigit then parseNumber (c :: rest)
      else .error "Unexpected token in JSON"

/-- Parse the members of a JSON object (after the opening brace, at least one
member present). -/
def parseMembers : Nat → Str → Except String (List (Str × JsValue) × Str)
  | 0, _ => .error "JSON too deeply nested for model"
  | fuel + 1, s =>
    match skipJsonWs s with
    | '"' :: rest =>
      match parseStringRest rest with
      | .error e => .error e
      | .ok (key, rest2) =>
        match skipJsonWs rest2 with
        | ':' :: rest3 =>
          match parseVal fuel rest3 with
          | .error e => .error e
          | .ok (v, rest4) =>
            match skipJsonWs rest4 with
            | ',' :: rest5 => (parseMembers fuel rest5).map (fun p => ((key, v) :: p.1, p.2))
            | '}' :: rest5 => .ok ([(key, v)], rest5)
            | _ => .error "Expected comma or closing brace in JSON object"
        | _ => .error "Expected colon in JSON object"
    | _ => .error "Expected string key in JSON object"

/-- Parse the items of a JSON array (after the opening bracket, at least one
item present). -/
def parseItems : Nat → Str → Except String (List JsValue × Str)
  | 0, _ => .error "JSON too deeply nested for model"
  | fuel + 1, s =>
    match parseVal fuel s with
    | .error e => .error e
    | .ok (v, rest) =>
      match skipJsonWs rest with
      | ',' :: rest2 => (parseItems fuel rest2).map (fun p => (v :: p.1, p.2))
      | ']' :: rest2 => .ok ([v], rest2)
      | _ => .error "Expected comma or closing bracket in JSON array"

end

/-- Modelled `JSON.parse`: parse a complete JSON document (leading and
trailing whitespace allowed, nothing else may follow). -/
def parseJson (s : Str) : Except String JsValue :=
  match parseVal (2 * s.length + 2) s with
  | .error e => .error e
  | .ok (v, rest) =>
    if skipJsonWs rest = [] then .ok v
    else .error "Unexpected non-whitespace character after JSON data"

/-- Hexadecimal digit character (lowercase). -/
def hexDigit (n : Nat) : Char :=
  if n < 10 then Char.ofNat (48 + n) else Char.ofNat (87 + n)

/-- Escape one character as `JSON.stringify` does inside string literals. -/
def escapeChar (c : Char) : Str :=
  if c = '"' then ['\\', '"']
  else if c = '\\' then ['\\', '\\']
  else if c = Char.ofNat 8 then ['\\', 'b']
  else if c = Char.ofNat 12 then ['\\', 'f']
  else if c = '\n' then ['\\', 'n']
  else if c = '\r' then ['\\', 'r']
  else if c = '\t' then ['\\', 't']
  else if c.toNat < 32 then ['\\', 'u', '0', '0', hexDigit (c.toNat / 16), hexDigit (c.toNat % 16)]
  else [c]

/-- Serialize a string to a JSON string literal. -/
def escapeString (s : Str) : Str :=
  '"' :: (s.map escapeChar).flatten ++ ['"']

/-- Decimal digit character. -/
def digitChar (n : Nat) : Char := Char.ofNat (48 + n)

/-- Decimal representation of a natural number. -/
def natToStr (n : Nat) : Str :=
  if n < 10 then [digitChar n]
  else natToStr (n / 10) ++ [digitChar (n % 10)]
  termination_by n
  decreasing_by simp_all; omega

/-- Decimal representation of an integer. -/
def intToStr (n : Int) : Str :=
  if n < 0 then '-' :: natToStr n.natAbs else natToStr n.natAbs

mutual

/-- Modelled `JSON.stringify` (no indentation, keys in order, integers
only). -/
def stringifyJson : JsValue → Str
  | .jnull => ['n', 'u', 'l', 'l']
  | .jbool true => ['t', 'r', 'u', 'e']
  | .jbool false => ['f', 'a', 'l', 's', 'e']
  | .jnum n => intToStr n
  | .jstr s => escapeString s
  | .jarr xs => '[' :: stringifyElems xs ++ [']']
  | .jobj ms => '{' :: stringifyMembers ms ++ ['}']

/-- Comma-joined serialization of array elements. -/
def stringifyElems : List JsValue → Str
  | [] => []
  | [x] => stringifyJson x
  | x :: xs => stringifyJson x ++ ',' :: stringifyElems xs

/-- Comma-joined serialization of object members. -/
def stringifyMembers : List (Str × JsValue) → Str
  | [] => []
  | [(k, v)] => escapeString k ++ ':' :: stringifyJson v
  | (k, v) :: ms => escapeString k ++ ':' :: stringifyJson v ++ ',' :: stringifyMembers ms

end

/-! ## Framing layer (the `data` handler of `init`, source lines 138-184) -/

/-- Leftmost-match splitting worker for a non-empty separator `d :: ds`,
following `String.prototype.split` with a string separator. -/
def splitGo (d : Char) (ds : Str) : Str → List Str
  | [] => [[]]
  | c :: rest =>
    if (d :: ds).isPrefixOf (c :: rest) then
      [] :: splitGo d ds (rest.drop ds.length)
    else
      (splitGo d ds rest).modifyHead (fun t => c :: t)
  termination_by s => s.length
  decreasing_by
    all_goals simp [List.length_drop]
    omega

/-- Modelled `data.split(self.EOL)` (JS `String.prototype.split` with a
string separator; an empty separator splits into single characters). -/
def jsSplit (sep s : Str) : List Str :=
  match sep with
  | [] => s.map (fun c => [c])
  | d :: ds => splitGo d ds s

/-- Modelled `data.substring(data.length - EOL.length) != EOL` test (negated):
whether `data` ends with the separator.  `List.drop` clamps at zero exactly as
JS `substring` clamps a negative start index. -/
def jsEndsWith (s sep : Str) : Bool :=
  s.drop (s.length - sep.length) == sep

/-- Modelled `record.match(self.recordRegExp)` for the default pattern
`/^\s*\{/`: optional JS-whitespace then an opening brace. -/
def matchesRecord : Str → Bool
  | [] => false
  | c :: rest => if jsRegexWs c then matchesRecord rest else c == '{'

/-- Modelled `record.match(/\S/)`: the record contains a non-whitespace
character. -/
def hasNonWs (r : Str) : Bool := r.any (fun c => !jsRegexWs c)

/-- Configuration of a stream instance: `EOL`, `maxLineLength` and
`preserveWhitespace` (the record pattern is the default `/^\s*\{/`).
The source defaults are `os.EOL`, `1024 * 1024` and `false`. -/
structure Config where
  eol : Str
  maxLineLength : Nat
  preserveWhitespace : Bool

/-- Notifications emitted by the read path: `json` events, parse-error
`error` events (message plus offending raw record), and `text` events. -/
inductive Ev where
  | json (v : JsValue)
  | error (message : Str) (record : Str)
  | text (t : Str)

/-- Classification of one candidate record (one iteration of the record loop,
source lines 156-181).  `notLast` is `idx < len - 1`: whether another record
follows in this chunk's record list. -/
def classifyRecord (cfg : Config) (notLast : Bool) (record : Str) : List Ev :=
  if matchesRecord record then
    match parseJson record with
    | .ok v => if jsTruthy v then [.json v] else []
    | .error e => [.error ("JSON Parse Error: " ++ e).toList record]
  else if cfg.preserveWhitespace || hasNonWs record then
    let text := record ++ (if notLast then cfg.eol else [])
    if text.length ≠ 0 then [.text text] else []
  else []

/-- The record loop: classify each candidate record in order; a record is
`notLast` exactly when more records follow. -/
def processRecords (cfg : Config) : List Str → List Ev
  | [] => []
  | r :: rest => classifyRecord cfg (!rest.isEmpty) r ++ processRecords cfg rest

/-- The buffered data for one chunk (source lines 139-143): prepend the
pending buffer when it is non-empty, and in that case truncate from the front
to `maxLineLength` characters when the concatenation is longer. -/
def clampedData (cfg : Config) (buffer chunk : Str) : Str :=
  if buffer.isEmpty then chunk
  else if (buffer ++ chunk).length > cfg.maxLineLength then
    (buffer ++ chunk).drop ((buffer ++ chunk).length - cfg.maxLineLength)
  else buffer ++ chunk

/-- Candidate records of one chunk and the new pending buffer (source lines
145-151): split the buffered data on the delimiter; when the data does not
end with the delimiter, pop the final (partial) element into the buffer. -/
def chunkRecords (cfg : Config) (buffer chunk : Str) : List Str × Str :=
  let data := clampedData cfg buffer chunk
  let records := jsSplit cfg.eol data
  if jsEndsWith data cfg.eol then (records, [])
  else (records.dropLast, records.getLastD [])

/-- One invocation of the `data` handler: the emitted events, in order, and
the new pending buffer. -/
def handleData (cfg : Config) (buffer chunk : Str) : List Ev × Str :=
  let (records, buf) := chunkRecords cfg buffer chunk
  (processRecords cfg records, buf)

/-- Process a sequence of chunks from an initial pending buffer, collecting
all emitted events in order and the final pending buffer. -/
def processChunks (cfg : Config) (buffer : Str) : List Str → List Ev × Str
  | [] => ([], buffer)
  | c :: cs =>
    let r1 := handleData cfg buffer c
    let r2 := processChunks cfg r1.2 cs
    (r1.1 ++ r2.1, r2.2)

/-- All candidate records fed to the record loop over a sequence of chunks,
in order, and the final pending buffer. -/
def chunksRecords (cfg : Config) (buffer : Str) : List Str → List Str × Str
  | [] => ([], buffer)
  | c :: cs =>
    let r1 := chunkRecords cfg buffer c
    let r2 := chunksRecords cfg r1.2 cs
    (r1.1 ++ r2.1, r2.2)

/-- Whether an event is a `json` or `error` notification (the decoded
output, as opposed to `text` noise). -/
def isJE : Ev → Bool
  | .json _ => true
  | .error _ _ => true
  | .text _ => false

/-- Whether an event is a `text` notification. -/
def isText : Ev → Bool
  | .text _ => true
  | _ => false

/-! ## Write path (source lines 209-224) -/

/-- Everything one `write(json, callback)` call does: the texts written to
the output stream, the notifications emitted (the write path emits none),
whether serialization threw, and the returned backpressure boolean (`none`
when serialization threw, so nothing was returned). -/
structure WriteOutcome (β : Type) where
  written : List Str
  emitted : List Ev
  threw : Bool
  result : Option Bool

/-- Modelled `write(json, callback)`: serialize (`strf`, which models
`JSON.stringify` and may throw, modelled by `none`), append the delimiter,
write to the sink forwarding the callback, and return the sink's boolean. -/
def writeJson {α β : Type} (strf : α → Option Str) (sink : Str → Option β → Bool)
    (eol : Str) (v : α) (cb : Option β) : WriteOutcome β :=
  match strf v with
  | none => ⟨[], [], true, none⟩
  | some data => ⟨[data ++ eol], [], false, some (sink (data ++ eol) cb)⟩

/-! ## Stream error wiring (source lines 186-201) -/

/-- A stream error object, reduced to its message. -/
structure JsError where
  message : Str

/-- Payload of an `error` notification raised by the stream wiring: either
the original error object forwarded verbatim, or a fresh string. -/
inductive ErrPayload where
  | errObj (e : JsError)
  | msgStr (s : Str)

/-- Payload emitted for an input-stream error: with separate input and
output streams a string with context is emitted (source line 190); with a
single bidirectional stream the error object is forwarded verbatim (source
line 199). -/
def inputErrorPayload (separateStreams : Bool) (err : JsError) : ErrPayload :=
  if separateStreams then .msgStr ("Error in input stream: ".toList ++ err.message)
  else .errObj err

/-- Payload emitted for an output-stream error: only with separate streams
is a handler attached (source line 192); it emits a context string. -/
def outputErrorPayload (separateStreams : Bool) (err : JsError) : Option ErrPayload :=
  if separateStreams then some (.msgStr ("Error in output stream: ".toList ++ err.message))
  else none

/-- The `json`/`error` part of one record's classification (independent of
the record's position in the chunk). -/
def jeRecord (r : Str) : List Ev :=
  if matchesRecord r then
    match parseJson r with
    | .ok v => if jsTruthy v then [.json v] else []
    | .error e => [.error ("JSON Parse Error: " ++ e).toList r]
  else []

/-! ## Basic lemmas about the splitter -/

theorem splitGo_ne_nil (d : Char) (ds : Str) (s : Str) : splitGo d ds s ≠ [] := by
  induction s using splitGo.induct d ds with
  | case1 => simp [splitGo]
  | case2 c rest h ih => rw [splitGo]; simp [h]
  | case3 c rest h ih =>
    rw [splitGo]
    simp [h]
    cases hsp : splitGo d ds rest with
    | nil => exact absurd hsp ih
    | cons x xs => simp [List.modifyHead]

theorem splitGo_singleton (d : Char) (ds : Str) (s t : Str)
    (h : splitGo d ds s = [t]) : t = s := by
  induction s using splitGo.induct d ds generalizing t with
  | case1 => simp [splitGo] at h; exact h
  | case2 c rest hp ih =>
    rw [splitGo] at h
    simp [hp] at h
    exact absurd h.2 (splitGo_ne_nil d ds _)
  | case3 c rest hp ih =>
    rw [splitGo] at h
    simp [hp] at h
    cases hsp : splitGo d ds rest with
    | nil => exact absurd hsp (splitGo_ne_nil d ds rest)
    | cons x xs =>
      rw [hsp] at h
      simp [List.modifyHead] at h
      obtain ⟨rfl, rfl⟩ := h
      have := ih (t := x) (by rw [hsp])
      simp [this]

theorem getLastD_irrel {α : Type} (l : List α) (h : l ≠ []) (a b : α) :
    l.getLastD a = l.getLastD b := by
  cases l with
  | nil => simp at h
  | cons x xs => simp [List.getLastD_eq_getLast?, List.getLast?_cons]

theorem splitGo_getLastD_suffix (d : Char) (ds : Str) (s : Str) :
    (splitGo d ds s).getLastD [] <:+ s := by
  induction s using splitGo.induct d ds with
  | case1 => simp [splitGo]
  | case2 c rest h ih =>
    rw [splitGo]
    simp only [if_pos h, List.getLastD_cons]
    have h2 : (splitGo d ds (rest.drop ds.length)).getLastD [] <:+ rest.drop ds.length := ih
    exact (h2.trans (List.drop_suffix ds.length rest)).trans (List.suffix_cons c rest)
  | case3 c rest h ih =>
    rw [splitGo]
    simp only [if_neg h]
    cases hsp : splitGo d ds rest with
    | nil => exact absurd hsp (splitGo_ne_nil d ds rest)
    | cons x xs =>
      rw [hsp] at ih
      rw [List.modifyHead_cons]
      cases hxs : xs with
      | nil =>
        have hx : x = rest := splitGo_singleton d ds rest x (by rw [hsp, hxs])
        simp only [List.getLastD_cons, List.getLastD_nil, hx]
        exact List.suffix_refl _
      | cons y ys =>
        subst hxs
        rw [List.getLastD_cons] at ih ⊢
        have hir : (y :: ys).getLastD (c :: x) = (y :: ys).getLastD x :=
          getLastD_irrel _ (by simp) _ _
        rw [hir]
        exact ih.trans (List.suffix_cons c rest)

theorem jsSplit_single_nil (dl : Char) : jsSplit [dl] [] = [[]] := by
  simp [jsSplit, splitGo]

theorem jsSplit_single_cons (dl c : Char) (s : Str) :
    jsSplit [dl] (c :: s) =
      if c = dl then [] :: jsSplit [dl] s else (jsSplit [dl] s).modifyHead (fun t => c :: t) := by
  simp only [jsSplit]
  rw [splitGo]
  by_cases h : c = dl
  · subst h
    simp [List.isPrefixOf]
  · have hb : (dl == c) = false := by
      simp only [beq_eq_false_iff_ne]
      exact fun e => h e.symm
    simp [List.isPrefixOf, hb, h]

theorem jsSplit_single_ne_nil (dl : Char) (s : Str) : jsSplit [dl] s ≠ [] :=
  splitGo_ne_nil dl [] s

theorem jsEndsWith_single_nil (dl : Char) : jsEndsWith [] [dl] = false := rfl

theorem jsEndsWith_single_cons (dl c : Char) (s : Str) :
    jsEndsWith (c :: s) [dl] = if s.isEmpty then c == dl else jsEndsWith s [dl] := by
  cases s with
  | nil => simp [jsEndsWith]
  | cons x t =>
    simp only [List.isEmpty_cons, if_neg]
    show jsEndsWith (c :: x :: t) [dl] = jsEndsWith (x :: t) [dl]
    simp only [jsEndsWith, List.length_cons, List.length_nil]
    have h1 : t.length + 1 + 1 - (0 + 1) = t.length + 1 := by omega
    have h2 : t.length + 1 - (0 + 1) = t.length := by omega
    rw [h1, h2, List.drop_succ_cons]

theorem mem_jsSplit_single (dl : Char) (s t : Str) (h : t ∈ jsSplit [dl] s) : dl ∉ t := by
  induction s generalizing t with
  | nil =>
    rw [jsSplit_single_nil] at h
    simp at h
    simp [h]
  | cons c s ih =>
    rw [jsSplit_single_cons] at h
    by_cases hc : c = dl
    · rw [if_pos hc] at h
      rcases List.mem_cons.mp h with rfl | h2
      · simp
      · exact ih t h2
    · rw [if_neg hc] at h
      cases hsp : jsSplit [dl] s with
      | nil => exact absurd hsp (jsSplit_single_ne_nil dl s)
      | cons x xs =>
        rw [hsp, List.modifyHead_cons] at h
        rcases List.mem_cons.mp h with rfl | h2
        · have hx : dl ∉ x := ih x (by rw [hsp]; exact List.mem_cons_self x xs)
          simp [hx]
          exact fun e => hc e.symm
        · exact ih t (by rw [hsp]; exact List.mem_cons_of_mem x h2)

theorem getLastD_jsSplit_single_eq_nil (dl : Char) (s : Str) :
    ((jsSplit [dl] s).getLastD [] = []) ↔ (s = [] ∨ jsEndsWith s [dl] = true) := by
  induction s with
  | nil => simp [jsSplit_single_nil]
  | cons c s ih =>
    rw [jsSplit_single_cons, jsEndsWith_single_cons]
    by_cases hc : c = dl
    · rw [if_pos hc, List.getLastD_cons]
      cases s with
      | nil => simp [jsSplit_single_nil, hc]
      | cons x t =>
        simp only [List.isEmpty_cons, List.cons_ne_nil, false_or, if_neg, Bool.false_eq_true]
        rw [ih]
        simp
    · rw [if_neg hc]
      cases hsp : jsSplit [dl] s with
      | nil => exact absurd hsp (jsSplit_single_ne_nil dl s)
      | cons x xs =>
        rw [List.modifyHead_cons]
        cases xs with
        | nil =>
          have hx : x = s := splitGo_singleton dl [] s x hsp
          have hlhs : [c :: x].getLastD ([] : Str) = c :: x := by
            simp [List.getLastD_cons]
          rw [hlhs]
          constructor
          · intro h
            exact absurd h (List.cons_ne_nil c x)
          · intro h
            exfalso
            rcases h with h | h
            · exact List.cons_ne_nil c s h
            · cases s with
              | nil =>
                simp only [List.isEmpty_nil, if_pos] at h
                exact hc (beq_iff_eq.mp h)
              | cons z t =>
                simp only [List.isEmpty_cons, Bool.false_eq_true, if_neg] at h
                have h2 := ih.mpr (Or.inr h)
                rw [hsp] at h2
                simp only [List.getLastD_cons, List.getLastD_nil] at h2
                rw [h2] at hx
                exact List.cons_ne_nil z t hx.symm
        | cons y ys =>
          have hs : s ≠ [] := by
            intro he
            rw [he, jsSplit_single_nil] at hsp
            simp at hsp
          rw [List.getLastD_cons]
          have hir : (y :: ys).getLastD (c :: x) = (y :: ys).getLastD x :=
            getLastD_irrel _ (by simp) _ _
          rw [hir]
          have hlhs : (y :: ys).getLastD x = (jsSplit [dl] s).getLastD [] := by
            rw [hsp]
            simp only [List.getLastD_cons]
          rw [hlhs, ih]
          cases s with
          | nil => exact absurd rfl hs
          | cons z t => simp

theorem jsSplit_single_append (dl : Char) (a b : Str) :
    jsSplit [dl] (a ++ b) =
      (jsSplit [dl] a).dropLast ++ jsSplit [dl] ((jsSplit [dl] a).getLastD [] ++ b) := by
  induction a with
  | nil => simp [jsSplit_single_nil]
  | cons c a ih =>
    rw [List.cons_append, jsSplit_single_cons, jsSplit_single_cons]
    by_cases hc : c = dl
    · rw [if_pos hc, if_pos hc]
      cases hsp : jsSplit [dl] a with
      | nil => exact absurd hsp (jsSplit_single_ne_nil dl a)
      | cons x xs =>
        rw [List.dropLast_cons_of_ne_nil (List.cons_ne_nil x xs), List.getLastD_cons,
          List.cons_append, ← hsp, ih]
    · rw [if_neg hc, if_neg hc]
      cases hsp : jsSplit [dl] a with
      | nil => exact absurd hsp (jsSplit_single_ne_nil dl a)
      | cons x xs =>
        rw [List.modifyHead_cons]
        cases xs with
        | nil =>
          have hx : x = a := splitGo_singleton dl [] a x hsp
          have h1 : [c :: x].dropLast = ([] : List Str) := rfl
          have h2 : [c :: x].getLastD ([] : Str) = c :: x := by simp [List.getLastD_cons]
          rw [h1, h2, List.nil_append, hx, List.cons_append, jsSplit_single_cons, if_neg hc]
        | cons y ys =>
          rw [List.dropLast_cons_of_ne_nil (List.cons_ne_nil y ys), List.getLastD_cons]
          have hir : (y :: ys).getLastD (c :: x) = (y :: ys).getLastD x :=
            getLastD_irrel _ (by simp) _ _
          rw [hir, ih, hsp, List.dropLast_cons_of_ne_nil (List.cons_ne_nil y ys),
            List.getLastD_cons, List.cons_append, List.modifyHead_cons, List.cons_append]

/-! ## Classifier lemmas -/

theorem classifyRecord_filter_isJE (cfg : Config) (nl : Bool) (r : Str) :
    (classifyRecord cfg nl r).filter isJE = jeRecord r := by
  unfold classifyRecord jeRecord
  by_cases hm : matchesRecord r
  · simp only [if_pos hm]
    cases parseJson r with
    | ok v =>
      by_cases ht : jsTruthy v
      · simp [ht, isJE]
      · simp [ht]
    | error e => simp [isJE]
  · simp only [if_neg hm]
    by_cases hp : cfg.preserveWhitespace || hasNonWs r
    · simp only [if_pos hp]
      split
      · simp [isJE]
      · simp [isJE]
    · simp [hp]

theorem jeRecord_nil : jeRecord [] = [] := rfl

theorem processRecords_filter_isJE (cfg : Config) (rs : List Str) :
    (processRecords cfg rs).filter isJE = (rs.map jeRecord).flatten := by
  induction rs with
  | nil => simp [processRecords]
  | cons r rest ih =>
    simp only [processRecords, List.filter_append, List.map_cons, List.flatten_cons,
      classifyRecord_filter_isJE, ih]

theorem processRecords_append (cfg : Config) (pre rs : List Str) (h : rs ≠ []) :
    processRecords cfg (pre ++ rs) =
      (pre.map (classifyRecord cfg true)).flatten ++ processRecords cfg rs := by
  induction pre with
  | nil => simp
  | cons r pre ih =>
    have hne : (pre ++ rs).isEmpty = false := by
      simp [List.isEmpty_iff, h]
    simp only [List.cons_append, processRecords, List.append_eq, hne, Bool.not_false, ih,
      List.map_cons, List.flatten_cons, List.append_assoc]

/-! ## More list utilities -/

theorem getLastD_append {α : Type} (l1 l2 : List α) (d : α) (h : l2 ≠ []) :
    (l1 ++ l2).getLastD d = l2.getLastD d := by
  induction l1 with
  | nil => rfl
  | cons x l1 ih =>
    rw [List.cons_append, List.getLastD_cons]
    have h2 : l1 ++ l2 ≠ [] := by simp [h]
    rw [getLastD_irrel _ h2 x d]
    exact ih

theorem dropLast_flatten_last_nil {α : Type} (f : List α → List Ev) (S : List (List α))
    (hS : S ≠ []) (hlast : S.getLastD [] = []) (hf : f [] = []) :
    (S.map f).flatten = (S.dropLast.map f).flatten := by
  conv_lhs => rw [← List.dropLast_append_getLast hS]
  rw [List.map_append, List.flatten_append]
  have : S.getLast hS = S.getLastD [] := by
    rw [List.getLastD_eq_getLast?, List.getLast?_eq_getLast S hS]
    rfl
  rw [this, hlast]
  simp [hf]

theorem jsEndsWith_single_append (dl : Char) (a t : Str) :
    jsEndsWith (a ++ t) [dl] = if t.isEmpty then jsEndsWith a [dl] else jsEndsWith t [dl] := by
  induction a with
  | nil =>
    cases t with
    | nil => rfl
    | cons x u => simp
  | cons c a ih =>
    rw [List.cons_append, jsEndsWith_single_cons, jsEndsWith_single_cons]
    cases t with
    | nil =>
      simp only [List.isEmpty_nil, if_pos, List.append_nil]
    | cons x u =>
      have h1 : (a ++ x :: u).isEmpty = false := by simp
      rw [h1]
      simp only [List.isEmpty_cons, Bool.false_eq_true, if_neg, ih]
      cases a with
      | nil => simp
      | cons z w => simp

theorem jsEndsWith_single_of_not_mem (dl : Char) (s : Str) (h : dl ∉ s) :
    jsEndsWith s [dl] = false := by
  induction s with
  | nil => rfl
  | cons c t ih =>
    rw [jsEndsWith_single_cons]
    cases t with
    | nil =>
      simp only [List.isEmpty_nil, if_pos]
      simp at h
      simp [beq_eq_false_iff_ne]
      exact fun e => h e.symm
    | cons x u =>
      simp only [List.isEmpty_cons, Bool.false_eq_true, if_neg]
      exact ih (fun hm => h (List.mem_cons_of_mem c hm))

theorem getLastD_mem {α : Type} (l : List α) (h : l ≠ []) (d : α) : l.getLastD d ∈ l := by
  rw [List.getLastD_eq_getLast?, List.getLast?_eq_getLast l h]
  exact List.getLast_mem h

theorem clampedData_nil_buffer (cfg : Config) (c : Str) : clampedData cfg [] c = c := rfl

theorem clampedData_of_le (cfg : Config) (b c : Str)
    (h : (b ++ c).length ≤ cfg.maxLineLength) : clampedData cfg b c = b ++ c := by
  unfold clampedData
  by_cases hb : b.isEmpty
  · have hbe : b = [] := List.isEmpty_iff.mp hb
    simp [hb, hbe]
  · have h2 : ¬((b ++ c).length > cfg.maxLineLength) := by omega
    rw [if_neg hb, if_neg h2]

theorem chunkRecords_of_clamped (cfg : Config) (b c : Str)
    (h : clampedData cfg b c = b ++ c) :
    chunkRecords cfg b c =
      if jsEndsWith (b ++ c) cfg.eol
      then (jsSplit cfg.eol (b ++ c), ([] : Str))
      else ((jsSplit cfg.eol (b ++ c)).dropLast, (jsSplit cfg.eol (b ++ c)).getLastD []) := by
  unfold chunkRecords
  rw [h]

theorem chunkRecords_merge (cfg : Config) (dl : Char) (hd : cfg.eol = [dl])
    (b c1 c2 : Str)
    (hlen : (b ++ (c1 ++ c2)).length ≤ cfg.maxLineLength) :
    ((chunkRecords cfg b c1).1.map jeRecord).flatten ++
      ((chunkRecords cfg (chunkRecords cfg b c1).2 c2).1.map jeRecord).flatten =
      ((chunkRecords cfg b (c1 ++ c2)).1.map jeRecord).flatten
    ∧ (chunkRecords cfg (chunkRecords cfg b c1).2 c2).2 =
      (chunkRecords cfg b (c1 ++ c2)).2 := by
  have hlen1 : (b ++ c1).length ≤ cfg.maxLineLength := by
    simp only [List.length_append] at hlen ⊢
    omega
  have hc1 : clampedData cfg b c1 = b ++ c1 := clampedData_of_le cfg b c1 hlen1
  have hcT : clampedData cfg b (c1 ++ c2) = b ++ (c1 ++ c2) :=
    clampedData_of_le cfg b (c1 ++ c2) hlen
  rw [chunkRecords_of_clamped cfg b c1 hc1, chunkRecords_of_clamped cfg b (c1 ++ c2) hcT, hd]
  have hassoc : b ++ (c1 ++ c2) = (b ++ c1) ++ c2 := (List.append_assoc b c1 c2).symm
  rw [hassoc]
  have hSA := jsSplit_single_append dl (b ++ c1) c2
  by_cases hE1 : jsEndsWith (b ++ c1) [dl] = true
  · rw [if_pos hE1]
    have hLnil : (jsSplit [dl] (b ++ c1)).getLastD [] = [] :=
      (getLastD_jsSplit_single_eq_nil dl (b ++ c1)).mpr (Or.inr hE1)
    rw [hLnil, List.nil_append] at hSA
    have hc2 : clampedData cfg [] c2 = [] ++ c2 := by simp [clampedData]
    rw [chunkRecords_of_clamped cfg [] c2 hc2, hd]
    simp only [List.nil_append]
    have hJES : ((jsSplit [dl] (b ++ c1)).map jeRecord).flatten =
        ((jsSplit [dl] (b ++ c1)).dropLast.map jeRecord).flatten :=
      dropLast_flatten_last_nil jeRecord _ (jsSplit_single_ne_nil dl _) hLnil jeRecord_nil
    by_cases hE2 : jsEndsWith c2 [dl] = true
    · have hc2ne : c2.isEmpty = false := by
        cases c2 with
        | nil => rw [jsEndsWith_single_nil] at hE2; exact absurd hE2 (by simp)
        | cons x u => rfl
      have hTE : jsEndsWith ((b ++ c1) ++ c2) [dl] = true := by
        rw [jsEndsWith_single_append, hc2ne]
        simpa using hE2
      rw [if_pos hE2, if_pos hTE, hSA]
      dsimp only
      constructor
      · rw [List.map_append, List.flatten_append, hJES]
      · rfl
    · rw [if_neg hE2]
      by_cases hc2e : c2 = []
      · subst hc2e
        have hTE : jsEndsWith ((b ++ c1) ++ []) [dl] = true := by
          rw [List.append_nil]; exact hE1
        rw [if_pos hTE]
        dsimp only
        constructor
        · rw [List.append_nil, jsSplit_single_nil, hJES]
          simp [jeRecord_nil]
        · rw [jsSplit_single_nil]
          rfl
      · have hc2e' : c2.isEmpty = false := by
          cases c2 with
          | nil => exact absurd rfl hc2e
          | cons x u => rfl
        have hE2f : jsEndsWith c2 [dl] = false := by
          revert hE2; cases jsEndsWith c2 [dl] <;> simp
        have hTE : ¬(jsEndsWith ((b ++ c1) ++ c2) [dl] = true) := by
          rw [jsEndsWith_single_append, hc2e', hE2f]
          simp
        rw [if_neg hTE, hSA]
        dsimp only
        have hne2 : jsSplit [dl] c2 ≠ [] := jsSplit_single_ne_nil dl c2
        constructor
        · rw [List.dropLast_append_of_ne_nil _ hne2, List.map_append, List.flatten_append, hJES]
        · rw [getLastD_append _ _ _ hne2]
  · rw [if_neg hE1]
    have hE1f : jsEndsWith (b ++ c1) [dl] = false := by
      revert hE1; cases jsEndsWith (b ++ c1) [dl] <;> simp
    by_cases hA : b ++ c1 = []
    · dsimp only
      have hb0 : b = [] := (List.append_eq_nil.mp hA).1
      have hc10 : c1 = [] := (List.append_eq_nil.mp hA).2
      subst hb0
      subst hc10
      simp only [List.nil_append, jsSplit_single_nil]
      have hc2 : clampedData cfg ([[]].getLastD []) c2 = [] ++ c2 := by simp [clampedData]
      rw [chunkRecords_of_clamped cfg _ c2 hc2, hd]
      constructor
      · rfl
      · rfl
    · have hLne : (jsSplit [dl] (b ++ c1)).getLastD [] ≠ [] := by
        intro h
        rcases (getLastD_jsSplit_single_eq_nil dl (b ++ c1)).mp h with h1 | h2
        · exact hA h1
        · exact hE1 h2
      have hLsuf : (jsSplit [dl] (b ++ c1)).getLastD [] <:+ (b ++ c1) :=
        splitGo_getLastD_suffix dl [] (b ++ c1)
      have hdlL : dl ∉ (jsSplit [dl] (b ++ c1)).getLastD [] :=
        mem_jsSplit_single dl (b ++ c1) _
          (getLastD_mem _ (jsSplit_single_ne_nil dl _) [])
      have hlen2 : ((jsSplit [dl] (b ++ c1)).getLastD [] ++ c2).length ≤ cfg.maxLineLength := by
        have hs := hLsuf.length_le
        simp only [List.length_append] at hlen hs ⊢
        omega
      have hc2c : clampedData cfg ((jsSplit [dl] (b ++ c1)).getLastD []) c2 =
          (jsSplit [dl] (b ++ c1)).getLastD [] ++ c2 := clampedData_of_le _ _ _ hlen2
      dsimp only
      rw [chunkRecords_of_clamped cfg _ c2 hc2c, hd]
      have hEeq : jsEndsWith ((b ++ c1) ++ c2) [dl] =
          jsEndsWith ((jsSplit [dl] (b ++ c1)).getLastD [] ++ c2) [dl] := by
        have ha1 := jsEndsWith_single_append dl (b ++ c1) c2
        have ha2 := jsEndsWith_single_append dl ((jsSplit [dl] (b ++ c1)).getLastD []) c2
        rw [ha1, ha2]
        by_cases hc2e : c2.isEmpty
        · rw [if_pos hc2e, if_pos hc2e, hE1f, jsEndsWith_single_of_not_mem dl _ hdlL]
        · rw [if_neg hc2e, if_neg hc2e]
      by_cases hET : jsEndsWith ((jsSplit [dl] (b ++ c1)).getLastD [] ++ c2) [dl] = true
      · rw [if_pos hET, if_pos (by rw [hEeq]; exact hET), hSA]
        dsimp only
        constructor
        · rw [List.map_append, List.flatten_append]
        · rfl
      · rw [if_neg hET, if_neg (by rw [hEeq]; exact hET), hSA]
        dsimp only
        have hne2 : jsSplit [dl] ((jsSplit [dl] (b ++ c1)).getLastD [] ++ c2) ≠ [] :=
          jsSplit_single_ne_nil dl _
        constructor
        · rw [List.dropLast_append_of_ne_nil _ hne2, List.map_append, List.flatten_append]
        · rw [getLastD_append _ _ _ hne2]

theorem jsSplit_single_of_not_mem (dl : Char) (s : Str) (h : dl ∉ s) :
    jsSplit [dl] s = [s] := by
  induction s with
  | nil => exact jsSplit_single_nil dl
  | cons c t ih =>
    rw [jsSplit_single_cons]
    have hc : ¬(c = dl) := fun e => h (by rw [e]; exact List.mem_cons_self dl t)
    rw [if_neg hc, ih (fun hm => h (List.mem_cons_of_mem c hm))]
    rfl

theorem chunkRecords_buffer_props (cfg : Config) (dl : Char) (hd : cfg.eol = [dl])
    (b c : Str) (hlen : (b ++ c).length ≤ cfg.maxLineLength) :
    dl ∉ (chunkRecords cfg b c).2 ∧ (chunkRecords cfg b c).2.length ≤ (b ++ c).length := by
  rw [chunkRecords_of_clamped cfg b c (clampedData_of_le cfg b c hlen), hd]
  by_cases hE : jsEndsWith (b ++ c) [dl] = true
  · rw [if_pos hE]
    constructor
    · simp
    · simp
  · rw [if_neg hE]
    dsimp only
    constructor
    · exact mem_jsSplit_single dl _ _ (getLastD_mem _ (jsSplit_single_ne_nil dl _) [])
    · exact (splitGo_getLastD_suffix dl [] (b ++ c)).length_le

theorem chunksRecords_join (cfg : Config) (dl : Char) (hd : cfg.eol = [dl])
    (cs : List Str) (b : Str) (hb : dl ∉ b)
    (hlen : (b ++ cs.flatten).length ≤ cfg.maxLineLength) :
    ((chunksRecords cfg b cs).1.map jeRecord).flatten =
      ((chunkRecords cfg b cs.flatten).1.map jeRecord).flatten
    ∧ (chunksRecords cfg b cs).2 = (chunkRecords cfg b cs.flatten).2 := by
  induction cs generalizing b with
  | nil =>
    simp only [List.flatten_nil, chunksRecords]
    have hbl : (b ++ ([] : Str)).length ≤ cfg.maxLineLength := by
      simpa using hlen
    rw [chunkRecords_of_clamped cfg b [] (clampedData_of_le cfg b [] hbl), hd, List.append_nil]
    by_cases hbe : b = []
    · subst hbe
      rw [jsSplit_single_nil]
      constructor
      · rfl
      · rfl
    · have hsp : jsSplit [dl] b = [b] := jsSplit_single_of_not_mem dl b hb
      have hE : jsEndsWith b [dl] = false := jsEndsWith_single_of_not_mem dl b hb
      rw [hsp, hE]
      constructor
      · rfl
      · rfl
  | cons c cs ih =>
    have hlen1 : (b ++ (c ++ cs.flatten)).length ≤ cfg.maxLineLength := by
      simpa [List.flatten_cons] using hlen
    have hlenc : (b ++ c).length ≤ cfg.maxLineLength := by
      simp only [List.length_append] at hlen1 ⊢
      omega
    obtain ⟨hbp1, hbp2⟩ := chunkRecords_buffer_props cfg dl hd b c hlenc
    have hlen2 : ((chunkRecords cfg b c).2 ++ cs.flatten).length ≤ cfg.maxLineLength := by
      simp only [List.length_append] at hlen1 hbp2 ⊢
      omega
    obtain ⟨ihe, ihb⟩ := ih (chunkRecords cfg b c).2 hbp1 hlen2
    obtain ⟨hme, hmb⟩ := chunkRecords_merge cfg dl hd b c cs.flatten hlen1
    constructor
    · show (((chunkRecords cfg b c).1 ++ (chunksRecords cfg (chunkRecords cfg b c).2 cs).1).map
        jeRecord).flatten = _
      rw [List.map_append, List.flatten_append, ihe, hme, List.flatten_cons]
    · show (chunksRecords cfg (chunkRecords cfg b c).2 cs).2 = _
      rw [ihb, hmb, List.flatten_cons]

theorem processChunks_chunksRecords (cfg : Config) (cs : List Str) (b : Str) :
    (processChunks cfg b cs).1.filter isJE = ((chunksRecords cfg b cs).1.map jeRecord).flatten
    ∧ (processChunks cfg b cs).2 = (chunksRecords cfg b cs).2 := by
  induction cs generalizing b with
  | nil => exact ⟨rfl, rfl⟩
  | cons c cs ih =>
    obtain ⟨ihe, ihb⟩ := ih (handleData cfg b c).2
    have h2 : (handleData cfg b c).2 = (chunkRecords cfg b c).2 := rfl
    rw [h2] at ihe ihb
    constructor
    · show ((handleData cfg b c).1 ++ (processChunks cfg (handleData cfg b c).2 cs).1).filter
        isJE = _
      rw [List.filter_append, h2, ihe]
      show (processRecords cfg (chunkRecords cfg b c).1).filter isJE ++ _ = _
      rw [processRecords_filter_isJE]
      show _ = (((chunkRecords cfg b c).1 ++
        (chunksRecords cfg (chunkRecords cfg b c).2 cs).1).map jeRecord).flatten
      rw [List.map_append, List.flatten_append]
    · show (processChunks cfg (handleData cfg b c).2 cs).2 = _
      rw [h2, ihb]
      rfl

/-- C1 (amended): for a single-character delimiter (such as the default Unix
newline), and every sequence of input chunks whose concatenation never
exceeds the max-record-length limit, the `json` and `error` notifications
emitted by the framer and the final pending buffer depend only on the
concatenation of the chunks: they are identical to those produced by
delivering the whole concatenation as a single chunk, regardless of where
the chunk boundaries fall. -/
theorem C1_chunking_invariance (dl : Char) (M : Nat) (pw : Bool) (cs : List Str)
    (hlen : cs.flatten.length ≤ M) :
    (processChunks ⟨[dl], M, pw⟩ [] cs).1.filter isJE =
      (processChunks ⟨[dl], M, pw⟩ [] [cs.flatten]).1.filter isJE
    ∧ (processChunks ⟨[dl], M, pw⟩ [] cs).2 =
      (processChunks ⟨[dl], M, pw⟩ [] [cs.flatten]).2 := by
  have hd : (Config.mk [dl] M pw).eol = [dl] := rfl
  have hlen' : (([] : Str) ++ cs.flatten).length ≤ M := by simpa using hlen
  obtain ⟨he, hb⟩ := processChunks_chunksRecords ⟨[dl], M, pw⟩ cs []
  obtain ⟨he2, hb2⟩ := processChunks_chunksRecords ⟨[dl], M, pw⟩ [cs.flatten] []
  obtain ⟨hje, hjb⟩ := chunksRecords_join ⟨[dl], M, pw⟩ dl hd cs [] (by simp) hlen'
  have hs1 : (chunksRecords ⟨[dl], M, pw⟩ [] [cs.flatten]).1 =
      (chunkRecords ⟨[dl], M, pw⟩ [] cs.flatten).1 ++ [] := rfl
  have hs2 : (chunksRecords ⟨[dl], M, pw⟩ [] [cs.flatten]).2 =
      (chunkRecords ⟨[dl], M, pw⟩ [] cs.flatten).2 := rfl
  constructor
  · rw [he, he2, hje, hs1, List.append_nil]
  · rw [hb, hb2, hjb, hs2]

/-- C1 (counterexample): the claim as stated is false on the code.  First,
with the default newline delimiter the candidate records fed to the record
loop do depend on the chunking: the chunks `"a\n"`, `"b\n"` produce the four
candidates `a`, ` `(empty), `b`, ` `(empty), while the single chunk
`"a\nb\n"` produces three, so they are not "exactly those N records" of the
concatenation.  Second, with the (configurable) delimiter `"aa"` even the
decoded output differs between chunkings of the same concatenation, although
it never exceeds the length limit. -/
theorem C1_counterexample :
    ((chunksRecords ⟨['\n'], 1048576, false⟩ [] ["a\n".toList, "b\n".toList]).1 ≠
      (chunksRecords ⟨['\n'], 1048576, false⟩ [] ["a\nb\n".toList]).1
      ∧ "a\n".toList ++ "b\n".toList = "a\nb\n".toList)
    ∧ ((processChunks ⟨['a', 'a'], 1048576, false⟩ []
          ["aaa".toList, "\x7b\x7daa".toList]).1.filter isJE ≠
        (processChunks ⟨['a', 'a'], 1048576, false⟩ [] ["aaa\x7b\x7daa".toList]).1.filter isJE
      ∧ "aaa".toList ++ "\x7b\x7daa".toList = "aaa\x7b\x7daa".toList
      ∧ ("aaa\x7b\x7daa".toList).length ≤ 1048576) := by
  constructor
  · constructor
    · have e1 : (chunksRecords ⟨['\n'], 1048576, false⟩ [] ["a\n".toList, "b\n".toList]).1 =
          [['a'], [], ['b'], []] := by
        simp [chunksRecords, chunkRecords, clampedData, jsSplit, splitGo, jsEndsWith]
      have e2 : (chunksRecords ⟨['\n'], 1048576, false⟩ [] ["a\nb\n".toList]).1 =
          [['a'], ['b'], []] := by
        simp [chunksRecords, chunkRecords, clampedData, jsSplit, splitGo, jsEndsWith]
      rw [e1, e2]
      decide
    · rfl
  · constructor
    · have e1 : (processChunks ⟨['a', 'a'], 1048576, false⟩ []
          ["aaa".toList, "\x7b\x7daa".toList]).1.filter isJE = [Ev.json (JsValue.jobj [])] := by
        simp [processChunks, handleData, chunkRecords, clampedData, jsSplit, splitGo,
          jsEndsWith, processRecords, classifyRecord, matchesRecord, hasNonWs, jsRegexWs,
          parseJson, parseVal, skipJsonWs, jsonWs, jsTruthy, isJE]
      have e2 : (processChunks ⟨['a', 'a'], 1048576, false⟩ []
          ["aaa\x7b\x7daa".toList]).1.filter isJE = [] := by
        simp [processChunks, handleData, chunkRecords, clampedData, jsSplit, splitGo,
          jsEndsWith, processRecords, classifyRecord, matchesRecord, hasNonWs, jsRegexWs,
          parseJson, parseVal, skipJsonWs, jsonWs, jsTruthy, isJE]
      rw [e1, e2]
      simp
    · exact ⟨rfl, by decide⟩

/-- C1 (witness): the amended invariance applied to the spec's concrete
scenario 1, the chunks `'{"a":1}\n{"b"'` and `':2}\n'`. -/
theorem C1_witness :
    (["\x7b\"a\":1\x7d\n\x7b\"b\"".toList, ":2\x7d\n".toList] : List Str).flatten.length ≤ 1048576
    ∧ ((processChunks ⟨['\n'], 1048576, false⟩ []
          ["\x7b\"a\":1\x7d\n\x7b\"b\"".toList, ":2\x7d\n".toList]).1.filter isJE =
        (processChunks ⟨['\n'], 1048576, false⟩ []
          [(["\x7b\"a\":1\x7d\n\x7b\"b\"".toList, ":2\x7d\n".toList] : List Str).flatten]).1.filter
          isJE
      ∧ (processChunks ⟨['\n'], 1048576, false⟩ []
          ["\x7b\"a\":1\x7d\n\x7b\"b\"".toList, ":2\x7d\n".toList]).2 =
        (processChunks ⟨['\n'], 1048576, false⟩ []
          [(["\x7b\"a\":1\x7d\n\x7b\"b\"".toList, ":2\x7d\n".toList] : List Str).flatten]).2) :=
  ⟨by decide, C1_chunking_invariance '\n' 1048576 false _ (by decide)⟩

theorem jsEndsWith_nil_sep (s : Str) : jsEndsWith s [] = true := by
  simp [jsEndsWith, List.drop_length]

theorem chunkRecords_buffer_le (cfg : Config) (b c : Str) :
    (chunkRecords cfg b c).2.length ≤ (clampedData cfg b c).length := by
  unfold chunkRecords
  by_cases hE : jsEndsWith (clampedData cfg b c) cfg.eol = true
  · rw [if_pos hE]
    simp
  · rw [if_neg hE]
    cases hsep : cfg.eol with
    | nil => exact absurd (hsep ▸ jsEndsWith_nil_sep (clampedData cfg b c)) hE
    | cons d ds =>
      show ((jsSplit (d :: ds) (clampedData cfg b c)).getLastD []).length ≤ _
      exact (splitGo_getLastD_suffix d ds (clampedData cfg b c)).length_le

/-- C2 (amended): truncation is applied only when a non-empty pending buffer
is prepended to the incoming chunk.  In that case, when the concatenation
exceeds `maxLineLength`, exactly the trailing `maxLineLength` characters (a
suffix of the pre-truncation concatenation) are retained before splitting,
and after processing any chunk with a non-empty prior pending buffer the new
pending buffer never exceeds `maxLineLength`.  (A chunk arriving on an empty
buffer is not clamped and may leave a longer buffer; see the
counterexample.) -/
theorem C2_truncation (cfg : Config) (b c : Str) (hb : b ≠ []) :
    (cfg.maxLineLength < (b ++ c).length →
      clampedData cfg b c = (b ++ c).drop ((b ++ c).length - cfg.maxLineLength)
      ∧ (clampedData cfg b c).length = cfg.maxLineLength
      ∧ clampedData cfg b c <:+ b ++ c)
    ∧ (handleData cfg b c).2.length ≤ cfg.maxLineLength := by
  have hbe : b.isEmpty = false := by
    cases b with
    | nil => exact absurd rfl hb
    | cons x t => rfl
  constructor
  · intro hlt
    have hcl : clampedData cfg b c = (b ++ c).drop ((b ++ c).length - cfg.maxLineLength) := by
      unfold clampedData
      rw [if_neg (by simp [hbe]), if_pos (by omega)]
    refine ⟨hcl, ?_, ?_⟩
    · rw [hcl]
      simp only [List.length_drop]
      omega
    · rw [hcl]
      exact List.drop_suffix _ _
  · have hclen : (clampedData cfg b c).length ≤ cfg.maxLineLength := by
      by_cases hlt : cfg.maxLineLength < (b ++ c).length
      · have hcl : clampedData cfg b c = (b ++ c).drop ((b ++ c).length - cfg.maxLineLength) := by
          unfold clampedData
          rw [if_neg (by simp [hbe]), if_pos (by omega)]
        rw [hcl]
        simp only [List.length_drop]
        omega
      · rw [clampedData_of_le cfg b c (by omega)]
        omega
    have h2 : (handleData cfg b c).2 = (chunkRecords cfg b c).2 := rfl
    rw [h2]
    exact le_trans (chunkRecords_buffer_le cfg b c) hclen

/-- C2 (counterexample): with `maxLineLength = 2`, an empty pending buffer
and the single chunk `"abc"` (no delimiter), the concatenation of the
pending buffer and the chunk has length 3 > 2, yet nothing is discarded
before splitting, and after the chunk is processed the pending buffer is the
whole chunk, of length 3 > `maxLineLength`. -/
theorem C2_counterexample :
    clampedData ⟨['\n'], 2, false⟩ [] "abc".toList = "abc".toList
    ∧ (handleData ⟨['\n'], 2, false⟩ [] "abc".toList).2 = "abc".toList
    ∧ 2 < (([] : Str) ++ "abc".toList).length := by
  refine ⟨rfl, ?_, by decide⟩
  have h2 : (handleData ⟨['\n'], 2, false⟩ [] "abc".toList).2 =
      (chunkRecords ⟨['\n'], 2, false⟩ [] "abc".toList).2 := rfl
  rw [h2]
  simp [chunkRecords, clampedData, jsSplit, splitGo, jsEndsWith]

/-- C2 (witness): the amended truncation property applied at buffer `"ab"`,
chunk `"cdef"` and `maxLineLength = 3`: the retained data is the trailing
three characters `"def"`, a suffix, and the new pending buffer has length at
most 3. -/
theorem C2_witness :
    ("ab".toList : Str) ≠ []
    ∧ ((⟨['\n'], 3, false⟩ : Config).maxLineLength <
        ("ab".toList ++ "cdef".toList).length →
      clampedData ⟨['\n'], 3, false⟩ "ab".toList "cdef".toList =
        ("ab".toList ++ "cdef".toList).drop
          (("ab".toList ++ "cdef".toList).length - (⟨['\n'], 3, false⟩ : Config).maxLineLength)
      ∧ (clampedData ⟨['\n'], 3, false⟩ "ab".toList "cdef".toList).length =
        (⟨['\n'], 3, false⟩ : Config).maxLineLength
      ∧ clampedData ⟨['\n'], 3, false⟩ "ab".toList "cdef".toList <:+
        "ab".toList ++ "cdef".toList)
    ∧ (handleData ⟨['\n'], 3, false⟩ "ab".toList "cdef".toList).2.length ≤
      (⟨['\n'], 3, false⟩ : Config).maxLineLength :=
  ⟨by decide, C2_truncation ⟨['\n'], 3, false⟩ "ab".toList "cdef".toList (by decide)⟩

/-! ## Record pattern and decode lemmas -/

theorem char_toNat_ne_of_ne (c x : Char) (h : c ≠ x) : c.toNat ≠ x.toNat :=
  fun e => h (Char.eq_of_val_eq (UInt32.toNat.inj e))

theorem matchesRecord_skipJsonWs (r : Str) (h : matchesRecord r = true) :
    (∃ t, skipJsonWs r = '{' :: t) ∨
      (∃ c t, skipJsonWs r = c :: t ∧ jsRegexWs c = true ∧ jsonWs c = false) := by
  induction r with
  | nil => simp [matchesRecord] at h
  | cons c rest ih =>
    rw [matchesRecord] at h
    by_cases hws : jsRegexWs c = true
    · rw [if_pos hws] at h
      by_cases hj : jsonWs c = true
      · have hsk : skipJsonWs (c :: rest) = skipJsonWs rest := by
          simp [skipJsonWs, List.dropWhile_cons, hj]
        rw [hsk]
        exact ih h
      · have hsk : skipJsonWs (c :: rest) = c :: rest := by
          simp [skipJsonWs, List.dropWhile_cons, hj]
        right
        exact ⟨c, rest, hsk, hws, by revert hj; cases jsonWs c <;> simp⟩
    · rw [if_neg hws] at h
      have hc : c = '{' := beq_iff_eq.mp h
      subst hc
      left
      refine ⟨rest, ?_⟩
      simp [skipJsonWs, List.dropWhile_cons, jsonWs]

theorem parseVal_obj_of_head (fuel : Nat) (s t : Str) (v : JsValue) (rest : Str)
    (h : parseVal fuel s = .ok (v, rest)) (hsk : skipJsonWs s = '{' :: t) :
    v.isObj = true := by
  cases fuel with
  | zero => simp [parseVal] at h
  | succ fuel =>
    rw [parseVal, hsk] at h
    dsimp only at h
    rw [if_pos rfl] at h
    split at h
    · cases h
      rfl
    · cases hpm : parseMembers fuel t with
      | error e =>
        rw [hpm] at h
        simp [Except.map] at h
      | ok p =>
        rw [hpm] at h
        simp only [Except.map] at h
        cases h
        rfl

theorem parseVal_regexWs_not_ok (fuel : Nat) (s t : Str) (c : Char) (v : JsValue) (rest : Str)
    (hws : jsRegexWs c = true) (hj : jsonWs c = false) (hsk : skipJsonWs s = c :: t) :
    parseVal fuel s ≠ .ok (v, rest) := by
  have hn : c.toNat = 11 ∨ c.toNat = 12 ∨ c.toNat = 0xa0 ∨ c.toNat = 0x1680 ∨
      (0x2000 ≤ c.toNat ∧ c.toNat ≤ 0x200a) ∨ c.toNat = 0x2028 ∨ c.toNat = 0x2029 ∨
      c.toNat = 0x202f ∨ c.toNat = 0x205f ∨ c.toNat = 0x3000 ∨ c.toNat = 0xfeff := by
    simp [jsRegexWs] at hws
    simp [jsonWs] at hj
    obtain ⟨⟨⟨hj1, hj2⟩, hj3⟩, hj4⟩ := hj
    have t1 : c.toNat ≠ 32 := char_toNat_ne_of_ne c ' ' hj1
    have t2 : c.toNat ≠ 9 := char_toNat_ne_of_ne c '\t' hj2
    have t3 : c.toNat ≠ 10 := char_toNat_ne_of_ne c '\n' hj3
    have t4 : c.toNat ≠ 13 := char_toNat_ne_of_ne c '\r' hj4
    omega
  have hne : ∀ x : Char, x.toNat ∈ ([123, 91, 34, 116, 102, 110, 45] : List Nat) → c ≠ x := by
    intro x hx he
    rw [he] at hn
    simp at hx
    rcases hx with h | h | h | h | h | h | h <;> rw [h] at hn <;> omega
  cases fuel with
  | zero => simp [parseVal]
  | succ fuel =>
    intro h
    rw [parseVal, hsk] at h
    dsimp only at h
    rw [if_neg (hne '{' (by simp)), if_neg (hne '[' (by simp)), if_neg (hne '"' (by simp)),
      if_neg (hne 't' (by simp)), if_neg (hne 'f' (by simp)), if_neg (hne 'n' (by simp))] at h
    have hnum : (decide (c = '-') || c.isDigit) = false := by
      have hd : c ≠ '-' := hne '-' (by simp)
      have hdig : c.isDigit = false := by
        by_cases hg : c.isDigit = true
        · exfalso
          simp [Char.isDigit] at hg
          have hg1 : 48 ≤ c.toNat := hg.1
          have hg2 : c.toNat ≤ 57 := hg.2
          omega
        · revert hg
          cases c.isDigit <;> simp
      simp [hd, hdig]
    rw [if_neg (by simp [hnum])] at h
    exact absurd h (by simp)

theorem parseJson_ok_matches_isObj (r : Str) (v : JsValue)
    (h : parseJson r = .ok v) (hm : matchesRecord r = true) : v.isObj = true := by
  unfold parseJson at h
  cases hpv : parseVal (2 * r.length + 2) r with
  | error e => rw [hpv] at h; simp at h
  | ok p =>
    rw [hpv] at h
    dsimp only at h
    by_cases hrest : skipJsonWs p.2 = []
    · rw [if_pos hrest] at h
      have hv : p.1 = v := Except.ok.inj h
      rcases matchesRecord_skipJsonWs r hm with ⟨t, hsk⟩ | ⟨c, t, hsk, hws, hj⟩
      · rw [← hv]
        exact parseVal_obj_of_head _ r t p.1 p.2 (by rw [hpv]) hsk
      · exact absurd (show parseVal (2 * r.length + 2) r = .ok (p.1, p.2) by rw [hpv])
          (parseVal_regexWs_not_ok (2 * r.length + 2) r t c p.1 p.2 hws hj hsk)
    · rw [if_neg hrest] at h
      simp at h

theorem jsTruthy_of_isObj (v : JsValue) (h : v.isObj = true) : jsTruthy v = true := by
  cases v <;> simp_all [JsValue.isObj, jsTruthy]

/-- C5 (confirmed): a candidate record that matches the record pattern and
decodes successfully contributes exactly one `json` notification carrying the
decoded value, while the records before it (classified as non-final) and the
records after it contribute their usual classifications, in order. -/
theorem C5_decode_success (cfg : Config) (pre post : List Str) (r : Str) (v : JsValue)
    (hm : matchesRecord r = true) (hp : parseJson r = .ok v) :
    processRecords cfg (pre ++ r :: post) =
      (pre.map (classifyRecord cfg true)).flatten ++ [Ev.json v] ++ processRecords cfg post := by
  have hobj := parseJson_ok_matches_isObj r v hp hm
  have ht := jsTruthy_of_isObj v hobj
  have hcl : ∀ nl, classifyRecord cfg nl r = [Ev.json v] := by
    intro nl
    unfold classifyRecord
    rw [if_pos hm]
    simp only [hp, ht, if_pos]
  rw [processRecords_append cfg pre (r :: post) (by simp)]
  have hcons : processRecords cfg (r :: post) =
      classifyRecord cfg (!post.isEmpty) r ++ processRecords cfg post := rfl
  rw [hcons, hcl, List.append_assoc]

/-- C5 (witness): the record `'{"x":1}'` followed by a non-JSON record
decodes to exactly one `json` notification carrying `{x:1}`. -/
theorem C5_witness :
    matchesRecord "\x7b\"x\":1\x7d".toList = true
    ∧ parseJson "\x7b\"x\":1\x7d".toList = .ok (.jobj [("x".toList, .jnum 1)])
    ∧ processRecords ⟨['\n'], 1048576, false⟩
        ([] ++ "\x7b\"x\":1\x7d".toList :: ["oops".toList]) =
      (([] : List Str).map (classifyRecord ⟨['\n'], 1048576, false⟩ true)).flatten ++
        [Ev.json (.jobj [("x".toList, .jnum 1)])] ++
        processRecords ⟨['\n'], 1048576, false⟩ ["oops".toList] :=
  ⟨rfl, rfl,
    C5_decode_success ⟨['\n'], 1048576, false⟩ [] ["oops".toList] "\x7b\"x\":1\x7d".toList
      (.jobj [("x".toList, .jnum 1)]) rfl rfl⟩

/-- C3 (confirmed): a candidate record that matches the record pattern but
fails to decode contributes exactly one `error` notification carrying the
parse-error description and the offending raw record, and no `json`
notification; the records before and after it contribute their usual
classifications, in order. -/
theorem C3_decode_failure (cfg : Config) (pre post : List Str) (r : Str) (e : String)
    (hm : matchesRecord r = true) (hp : parseJson r = .error e) :
    processRecords cfg (pre ++ r :: post) =
      (pre.map (classifyRecord cfg true)).flatten ++
        [Ev.error ("JSON Parse Error: " ++ e).toList r] ++ processRecords cfg post := by
  have hcl : ∀ nl, classifyRecord cfg nl r = [Ev.error ("JSON Parse Error: " ++ e).toList r] := by
    intro nl
    unfold classifyRecord
    rw [if_pos hm]
    simp only [hp]
  rw [processRecords_append cfg pre (r :: post) (by simp)]
  have hcons : processRecords cfg (r :: post) =
      classifyRecord cfg (!post.isEmpty) r ++ processRecords cfg post := rfl
  rw [hcons, hcl, List.append_assoc]

/-- C3 (witness): the truncated record `'{"b"'` matches the pattern, fails
to decode, and contributes exactly one `error` notification carrying the
raw record, with the following valid record still decoded normally. -/
theorem C3_witness :
    matchesRecord "\x7b\"b\"".toList = true
    ∧ parseJson "\x7b\"b\"".toList = .error "Expected colon in JSON object"
    ∧ processRecords ⟨['\n'], 1048576, false⟩
        ([] ++ "\x7b\"b\"".toList :: ["\x7b\"x\":2\x7d".toList]) =
      (([] : List Str).map (classifyRecord ⟨['\n'], 1048576, false⟩ true)).flatten ++
        [Ev.error ("JSON Parse Error: " ++ "Expected colon in JSON object").toList
          "\x7b\"b\"".toList] ++
        processRecords ⟨['\n'], 1048576, false⟩ ["\x7b\"x\":2\x7d".toList] :=
  ⟨rfl, rfl,
    C3_decode_failure ⟨['\n'], 1048576, false⟩ [] ["\x7b\"x\":2\x7d".toList] "\x7b\"b\"".toList
      "Expected colon in JSON object" rfl rfl⟩

theorem matchesRecord_of_allWs (r : Str) (h : hasNonWs r = false) :
    matchesRecord r = false := by
  induction r with
  | nil => rfl
  | cons c rest ih =>
    have hc : jsRegexWs c = true := by
      simp [hasNonWs] at h
      have := h.1
      revert this
      cases jsRegexWs c <;> simp
    have hrest : hasNonWs rest = false := by
      simp [hasNonWs] at h ⊢
      exact h.2
    rw [matchesRecord, if_pos hc]
    exact ih hrest

/-- C6 (amended): a complete candidate record consisting solely of
whitespace (or empty) yields no `text` notification when the
whitespace-preservation flag is off; when the flag is on it yields exactly
one `text` notification containing that whitespace, with the delimiter
reattached when the record is not the last element of the chunk's record
list — except that an empty record in the last position yields no
notification at all, because its reconstructed text is empty and empty text
payloads are suppressed. -/
theorem C6_whitespace_policy (cfg : Config) (pre post : List Str) (r : Str)
    (hws : hasNonWs r = false) (heol : cfg.eol ≠ []) :
    processRecords cfg (pre ++ r :: post) =
      (pre.map (classifyRecord cfg true)).flatten ++
        (if cfg.preserveWhitespace then
          (if post.isEmpty && r.isEmpty then []
           else [Ev.text (r ++ if !post.isEmpty then cfg.eol else [])])
         else []) ++ processRecords cfg post := by
  have hm : matchesRecord r = false := matchesRecord_of_allWs r hws
  rw [processRecords_append cfg pre (r :: post) (by simp)]
  have hcons : processRecords cfg (r :: post) =
      classifyRecord cfg (!post.isEmpty) r ++ processRecords cfg post := rfl
  rw [hcons]
  have hclass : classifyRecord cfg (!post.isEmpty) r =
      (if cfg.preserveWhitespace then
        (if post.isEmpty && r.isEmpty then []
         else [Ev.text (r ++ if !post.isEmpty then cfg.eol else [])])
       else []) := by
    unfold classifyRecord
    rw [if_neg (by simp [hm])]
    rw [show (cfg.preserveWhitespace || hasNonWs r) = cfg.preserveWhitespace by
      rw [hws]; simp]
    by_cases hpw : cfg.preserveWhitespace = true
    · rw [if_pos hpw, if_pos hpw]
      cases post with
      | nil =>
        simp only [List.isEmpty_nil, Bool.not_true, Bool.true_and]
        by_cases hr : r.isEmpty
        · have hre : r = [] := List.isEmpty_iff.mp hr
          subst hre
          simp
        · have hrl : r.length ≠ 0 := by
            cases r with
            | nil => exact absurd rfl hr
            | cons x t => simp
          rw [if_pos (by simpa using hrl), if_neg hr]
      | cons q qs =>
        simp only [List.isEmpty_cons, Bool.not_false, Bool.false_and]
        have hlen : (r ++ if true = true then cfg.eol else []).length ≠ 0 := by
          simp only [if_pos]
          cases heo : cfg.eol with
          | nil => exact absurd heo heol
          | cons x t => simp
        rw [if_pos (by simpa using hlen)]
        simp
    · rw [if_neg hpw, if_neg hpw]
  rw [hclass, List.append_assoc]

/-- C6 (counterexample): with whitespace preservation on, the chunk
`"a\n\nx"` yields the complete candidate records `"a"` and `""`; the empty
record is purely whitespace and is in the last position, and it yields no
`text` notification at all — the events are exactly one `text "a\n"` — so
the claim's "exactly one text notification" fails for it. -/
theorem C6_counterexample :
    (chunkRecords ⟨['\n'], 1048576, true⟩ [] "a\n\nx".toList).1 = ["a".toList, []]
    ∧ hasNonWs [] = false
    ∧ (⟨['\n'], 1048576, true⟩ : Config).preserveWhitespace = true
    ∧ (handleData ⟨['\n'], 1048576, true⟩ [] "a\n\nx".toList).1 = [Ev.text "a\n".toList] := by
  refine ⟨?_, rfl, rfl, ?_⟩
  · simp [chunkRecords, clampedData, jsSplit, splitGo, jsEndsWith]
  · simp [handleData, chunkRecords, clampedData, jsSplit, splitGo, jsEndsWith,
      processRecords, classifyRecord, matchesRecord, hasNonWs, jsRegexWs]

/-- C6 (witness): the amended policy applied to the purely-whitespace record
`"  "` with a record following it, with the preservation flag on: exactly one
`text` notification containing the whitespace with the delimiter
reattached. -/
theorem C6_witness :
    hasNonWs "  ".toList = false
    ∧ (⟨['\n'], 1048576, true⟩ : Config).eol ≠ []
    ∧ processRecords ⟨['\n'], 1048576, true⟩ ([] ++ "  ".toList :: ["x".toList]) =
      (([] : List Str).map (classifyRecord ⟨['\n'], 1048576, true⟩ true)).flatten ++
        (if (⟨['\n'], 1048576, true⟩ : Config).preserveWhitespace then
          (if (["x".toList] : List Str).isEmpty && "  ".toList.isEmpty then []
           else [Ev.text ("  ".toList ++
             if !(["x".toList] : List Str).isEmpty then (⟨['\n'], 1048576, true⟩ : Config).eol
             else [])])
         else []) ++ processRecords ⟨['\n'], 1048576, true⟩ ["x".toList] :=
  ⟨rfl, by decide,
    C6_whitespace_policy ⟨['\n'], 1048576, true⟩ [] ["x".toList] "  ".toList rfl (by decide)⟩

theorem text_mem_classifyRecord (cfg : Config) (nl : Bool) (r t : Str)
    (h : Ev.text t ∈ classifyRecord cfg nl r) : t ≠ [] := by
  unfold classifyRecord at h
  by_cases hm : matchesRecord r = true
  · rw [if_pos hm] at h
    cases hp : parseJson r with
    | ok v =>
      rw [hp] at h
      by_cases ht : jsTruthy v = true
      · simp [ht] at h
      · simp [ht] at h
    | error e =>
      rw [hp] at h
      simp at h
  · rw [if_neg hm] at h
    by_cases hp2 : (cfg.preserveWhitespace || hasNonWs r) = true
    · rw [if_pos hp2] at h
      split at h
      · simp at h
        obtain ⟨h1, h2⟩ := h
        subst h2
        intro he
        obtain ⟨hr, heol⟩ := List.append_eq_nil.mp he
        exact (h1 hr) heol
      · simp at h
        obtain ⟨h1, h2⟩ := h
        subst h2
        exact h1
    · rw [if_neg hp2] at h
      simp at h

theorem text_mem_processRecords (cfg : Config) (rs : List Str) (t : Str)
    (h : Ev.text t ∈ processRecords cfg rs) : t ≠ [] := by
  induction rs with
  | nil => simp [processRecords] at h
  | cons r rest ih =>
    rw [processRecords] at h
    rcases List.mem_append.mp h with h1 | h2
    · exact text_mem_classifyRecord cfg _ r t h1
    · exact ih h2

/-- C10 (confirmed): every `text` notification emitted while processing any
sequence of chunks from any starting buffer carries a non-empty payload; in
particular the empty final split element of a chunk ending exactly with the
delimiter is never reported as a `text` event, even with the
whitespace-preservation flag set. -/
theorem C10_text_nonempty (cfg : Config) (b : Str) (cs : List Str) (t : Str)
    (h : Ev.text t ∈ (processChunks cfg b cs).1) : t ≠ [] := by
  induction cs generalizing b with
  | nil => simp [processChunks] at h
  | cons c rest ih =>
    have hsplit : (processChunks cfg b (c :: rest)).1 =
        (handleData cfg b c).1 ++ (processChunks cfg (handleData cfg b c).2 rest).1 := rfl
    rw [hsplit] at h
    rcases List.mem_append.mp h with h1 | h2
    · exact text_mem_processRecords cfg (chunkRecords cfg b c).1 t h1
    · exact ih _ h2

/-- C10 (witness): the chunk `"hello\n"` with whitespace preservation on
emits the `text` event `"hello\n"`, and the theorem confirms its payload is
non-empty. -/
theorem C10_witness :
    Ev.text "hello\n".toList ∈
      (processChunks ⟨['\n'], 1048576, true⟩ [] ["hello\n".toList]).1
    ∧ "hello\n".toList ≠ [] :=
  have hmem : Ev.text "hello\n".toList ∈
      (processChunks ⟨['\n'], 1048576, true⟩ [] ["hello\n".toList]).1 := by
    have he : (processChunks ⟨['\n'], 1048576, true⟩ [] ["hello\n".toList]).1 =
        [Ev.text "hello\n".toList] := by
      simp [processChunks, handleData, chunkRecords, clampedData, jsSplit, splitGo,
        jsEndsWith, processRecords, classifyRecord, matchesRecord, hasNonWs, jsRegexWs]
    rw [he]
    exact List.mem_cons_self _ _
  ⟨hmem, C10_text_nonempty ⟨['\n'], 1048576, true⟩ [] ["hello\n".toList] "hello\n".toList hmem⟩

/-- C7 (confirmed): when serialization succeeds, `write` writes exactly the
serialized text immediately followed by the configured delimiter to the
output stream, forwards the callback to the sink's write operation, does not
throw, emits nothing, and returns exactly the boolean the sink returned. -/
theorem C7_write {α β : Type} (strf : α → Option Str) (sink : Str → Option β → Bool)
    (eol : Str) (v : α) (cb : Option β) (s : Str) (hs : strf v = some s) :
    writeJson strf sink eol v cb =
      ⟨[s ++ eol], [], false, some (sink (s ++ eol) cb)⟩ := by
  unfold writeJson
  rw [hs]

/-- C7 (witness): the spec's concrete scenario 4 — writing `{code:0}` with
delimiter `"\n"` puts exactly the text `'{"code":0}\n'` on the sink and
returns the sink's boolean. -/
theorem C7_witness :
    (fun u => some (stringifyJson u)) (JsValue.jobj [("code".toList, .jnum 0)]) =
      some "\x7b\"code\":0\x7d".toList
    ∧ writeJson (fun u => some (stringifyJson u)) (fun _ _ => true) ['\n']
        (JsValue.jobj [("code".toList, .jnum 0)]) (none : Option Unit) =
      ⟨["\x7b\"code\":0\x7d".toList ++ ['\n']], [], false,
        some ((fun _ _ => true) ("\x7b\"code\":0\x7d".toList ++ ['\n']) (none : Option Unit))⟩ := by
  have hs : (fun u => some (stringifyJson u)) (JsValue.jobj [("code".toList, .jnum 0)]) =
      some "\x7b\"code\":0\x7d".toList := by
    simp only []
    rw [show stringifyJson (JsValue.jobj [("code".toList, .jnum 0)]) =
      "\x7b\"code\":0\x7d".toList by
        simp [stringifyJson, stringifyMembers, escapeString, escapeChar, intToStr, natToStr,
          digitChar]]
  exact ⟨hs, C7_write (fun u => some (stringifyJson u)) (fun _ _ => true) ['\n']
    (JsValue.jobj [("code".toList, .jnum 0)]) (none : Option Unit)
    "\x7b\"code\":0\x7d".toList hs⟩

/-- C8 (confirmed): when serialization throws, `write` propagates the
exception synchronously to its caller (the outcome is `threw`, with no
returned boolean), emits no `error` notification, and writes nothing to the
output stream. -/
theorem C8_serialize_error {α β : Type} (strf : α → Option Str)
    (sink : Str → Option β → Bool) (eol : Str) (v : α) (cb : Option β)
    (h : strf v = none) :
    writeJson strf sink eol v cb = ⟨[], [], true, none⟩ := by
  unfold writeJson
  rw [h]

/-- C8 (witness): a serializer that always throws produces the thrown
outcome: nothing written, nothing emitted. -/
theorem C8_witness :
    (fun _ : Unit => (none : Option Str)) () = none
    ∧ writeJson (fun _ : Unit => (none : Option Str)) (fun _ _ => true) ['\n'] ()
        (none : Option Unit) = ⟨[], [], true, none⟩ :=
  ⟨rfl, C8_serialize_error (fun _ : Unit => (none : Option Str)) (fun _ _ => true) ['\n'] ()
    (none : Option Unit) rfl⟩

/-- C9 (amended): with a single bidirectional stream the input error object
is forwarded verbatim; with separate input and output streams the core
instead emits fresh strings `"Error in input stream: " + message` and
`"Error in output stream: " + message`, not the original error value, so
that read-side and write-side failures are distinguishable. -/
theorem C9_error_forwarding (e : JsError) :
    inputErrorPayload false e = .errObj e
    ∧ inputErrorPayload true e = .msgStr ("Error in input stream: ".toList ++ e.message)
    ∧ outputErrorPayload true e = some (.msgStr ("Error in output stream: ".toList ++ e.message))
    ∧ outputErrorPayload false e = none :=
  ⟨rfl, rfl, rfl, rfl⟩

/-- C9 (counterexample): with separate input and output streams, the payload
emitted for the input-stream error `"boom"` is the fresh string
`"Error in input stream: boom"` — not the error value forwarded verbatim —
so the claim's "whether or not the input and output streams are the same
object" fails. -/
theorem C9_counterexample :
    inputErrorPayload true ⟨"boom".toList⟩ =
      .msgStr ("Error in input stream: ".toList ++ "boom".toList)
    ∧ inputErrorPayload true ⟨"boom".toList⟩ ≠ .errObj ⟨"boom".toList⟩ :=
  ⟨rfl, by simp [inputErrorPayload]⟩
theorem JsValue.indNested {P : JsValue → Prop}
    (hnull : P .jnull) (hbool : ∀ b, P (.jbool b)) (hnum : ∀ n, P (.jnum n))
    (hstr : ∀ s, P (.jstr s))
    (harr : ∀ xs, (∀ x ∈ xs, P x) → P (.jarr xs))
    (hobj : ∀ ms, (∀ kv ∈ ms, P kv.2) → P (.jobj ms)) : ∀ v, P v := by
  intro v
  generalize hn : sizeOf v = n
  induction n using Nat.strong_induction_on generalizing v with
  | _ n ih =>
    subst hn
    cases v with
    | jnull => exact hnull
    | jbool b => exact hbool b
    | jnum m => exact hnum m
    | jstr s => exact hstr s
    | jarr xs =>
      refine harr xs (fun x hx => ih (sizeOf x) ?_ x rfl)
      have h1 : sizeOf x < sizeOf xs := List.sizeOf_lt_of_mem hx
      simp only [JsValue.jarr.sizeOf_spec]
      omega
    | jobj ms =>
      refine hobj ms (fun kv hkv => ih (sizeOf kv.2) ?_ kv.2 rfl)
      have h1 : sizeOf kv < sizeOf ms := List.sizeOf_lt_of_mem hkv
      obtain ⟨k, v2⟩ := kv
      simp only [Prod.mk.sizeOf_spec] at h1
      simp only [JsValue.jobj.sizeOf_spec]
      omega

theorem natToStr_no_newline (n : Nat) : ∀ c ∈ natToStr n, c ≠ '\n' := by
  induction n using natToStr.induct with
  | case1 n h =>
    rw [natToStr, if_pos h]
    intro c hc
    simp at hc
    subst hc
    unfold digitChar
    interval_cases n <;> decide
  | case2 n h ih =>
    rw [natToStr, if_neg h]
    intro c hc
    rcases List.mem_append.mp hc with h1 | h2
    · exact ih c h1
    · simp at h2
      subst h2
      unfold digitChar
      have hm : n % 10 < 10 := Nat.mod_lt _ (by norm_num)
      set m := n % 10 with hmm
      clear_value m
      interval_cases m <;> decide

theorem intToStr_no_newline (n : Int) : ∀ c ∈ intToStr n, c ≠ '\n' := by
  unfold intToStr
  split
  · intro c hc
    rcases List.mem_cons.mp hc with h1 | h2
    · subst h1; decide
    · exact natToStr_no_newline _ c h2
  · exact natToStr_no_newline _

theorem escapeChar_no_newline (x : Char) : ∀ c ∈ escapeChar x, c ≠ '\n' := by
  unfold escapeChar
  intro c hc
  repeat' split at hc
  all_goals simp at hc
  · rcases hc with h | h <;> subst h <;> decide
  · subst hc; decide
  · rcases hc with h | h <;> subst h <;> decide
  · rcases hc with h | h <;> subst h <;> decide
  · rcases hc with h | h <;> subst h <;> decide
  · rcases hc with h | h <;> subst h <;> decide
  · rcases hc with h | h <;> subst h <;> decide
  · rename_i h32
    rcases hc with h | h | h | h | h
    · subst h; decide
    · subst h; decide
    · subst h; decide
    · subst h
      unfold hexDigit
      have hlt : x.toNat / 16 < 2 := by omega
      set m := x.toNat / 16 with hm
      clear_value m
      interval_cases m <;> decide
    · subst h
      unfold hexDigit
      have hlt : x.toNat % 16 < 16 := Nat.mod_lt _ (by norm_num)
      set m := x.toNat % 16 with hm
      clear_value m
      interval_cases m <;> decide
  · subst hc
    rename_i hge
    intro he
    exact hge (by rw [he]; decide)

theorem escapeString_no_newline (s : Str) : ∀ c ∈ escapeString s, c ≠ '\n' := by
  unfold escapeString
  intro c hc
  rcases List.mem_cons.mp hc with h | h
  · subst h; decide
  · rcases List.mem_append.mp h with h2 | h2
    · rcases List.mem_flatten.mp h2 with ⟨l, hl, hcl⟩
      rcases List.mem_map.mp hl with ⟨x, _, rfl⟩
      exact escapeChar_no_newline x c hcl
    · simp at h2
      subst h2
      decide

theorem mem_stringifyElems (xs : List JsValue) (c : Char) (h : c ∈ stringifyElems xs) :
    c = ',' ∨ ∃ x ∈ xs, c ∈ stringifyJson x := by
  induction xs with
  | nil => simp [stringifyElems] at h
  | cons x xs ih =>
    cases xs with
    | nil =>
      simp only [stringifyElems] at h
      right
      exact ⟨x, by simp, h⟩
    | cons y ys =>
      simp only [stringifyElems] at h
      rcases List.mem_append.mp h with h1 | h1
      · right
        exact ⟨x, by simp, h1⟩
      · rcases List.mem_cons.mp h1 with h2 | h2
        · left
          exact h2
        · rcases ih h2 with h3 | ⟨z, hz, hcz⟩
          · left
            exact h3
          · right
            exact ⟨z, List.mem_cons_of_mem x hz, hcz⟩

theorem mem_stringifyMembers (ms : List (Str × JsValue)) (c : Char)
    (h : c ∈ stringifyMembers ms) :
    c = ',' ∨ c = ':' ∨ ∃ kv ∈ ms, c ∈ escapeString kv.1 ∨ c ∈ stringifyJson kv.2 := by
  induction ms with
  | nil => simp [stringifyMembers] at h
  | cons kv ms ih =>
    obtain ⟨k, v⟩ := kv
    cases ms with
    | nil =>
      simp only [stringifyMembers, List.mem_append, List.mem_cons] at h
      rcases h with h | h | h
      · exact Or.inr (Or.inr ⟨(k, v), by simp, Or.inl h⟩)
      · exact Or.inr (Or.inl h)
      · exact Or.inr (Or.inr ⟨(k, v), by simp, Or.inr h⟩)
    | cons kv2 ms2 =>
      simp only [stringifyMembers, List.mem_append, List.mem_cons] at h
      rcases h with (h | h | h) | h | h
      · exact Or.inr (Or.inr ⟨(k, v), by simp, Or.inl h⟩)
      · exact Or.inr (Or.inl h)
      · exact Or.inr (Or.inr ⟨(k, v), by simp, Or.inr h⟩)
      · exact Or.inl h
      · rcases ih h with h5 | h5 | ⟨z, hz, hcz⟩
        · exact Or.inl h5
        · exact Or.inr (Or.inl h5)
        · exact Or.inr (Or.inr ⟨z, List.mem_cons_of_mem _ hz, hcz⟩)

theorem stringify_no_newline : ∀ v : JsValue, ∀ c ∈ stringifyJson v, c ≠ '\n' := by
  intro v
  induction v using JsValue.indNested with
  | hnull =>
    intro c hc he
    subst he
    simp only [stringifyJson] at hc
    revert hc
    decide
  | hbool b =>
    cases b <;> intro c hc he <;> subst he <;> simp only [stringifyJson] at hc <;>
      revert hc <;> decide
  | hnum n =>
    intro c hc
    simp only [stringifyJson] at hc
    exact intToStr_no_newline n c hc
  | hstr s =>
    intro c hc
    simp only [stringifyJson] at hc
    exact escapeString_no_newline s c hc
  | harr xs ih =>
    intro c hc
    simp only [stringifyJson] at hc
    rcases List.mem_cons.mp hc with h | h
    · subst h; decide
    · rcases List.mem_append.mp h with h1 | h1
      · rcases mem_stringifyElems xs c h1 with h2 | ⟨x, hx, hcx⟩
        · subst h2; decide
        · exact ih x hx c hcx
      · simp at h1
        subst h1
        decide
  | hobj ms ih =>
    intro c hc
    simp only [stringifyJson] at hc
    rcases List.mem_cons.mp hc with h | h
    · subst h; decide
    · rcases List.mem_append.mp h with h1 | h1
      · rcases mem_stringifyMembers ms c h1 with h2 | h2 | ⟨kv, hkv, hcase⟩
        · subst h2; decide
        · subst h2; decide
        · rcases hcase with h3 | h3
          · exact escapeString_no_newline kv.1 c h3
          · exact ih kv hkv c h3
      · simp at h1
        subst h1
        decide

theorem jsSplit_append_delim (dl : Char) (s : Str) (h : dl ∉ s) :
    jsSplit [dl] (s ++ [dl]) = [s, []] := by
  induction s with
  | nil =>
    rw [List.nil_append, jsSplit_single_cons, if_pos rfl, jsSplit_single_nil]
  | cons c t ih =>
    have hc : ¬(c = dl) := fun e => h (by rw [e]; exact List.mem_cons_self dl t)
    rw [List.cons_append, jsSplit_single_cons, if_neg hc,
      ih (fun hm => h (List.mem_cons_of_mem c hm))]
    rfl

theorem jsEndsWith_append_delim (dl : Char) (s : Str) :
    jsEndsWith (s ++ [dl]) [dl] = true := by
  rw [jsEndsWith_single_append]
  have he : ([dl] : Str).isEmpty = false := rfl
  rw [he]
  simp only [Bool.false_eq_true, if_neg]
  rw [jsEndsWith_single_cons]
  simp

theorem classifyRecord_nil_last (cfg : Config) : classifyRecord cfg false [] = [] := by
  unfold classifyRecord
  rw [if_neg (by simp [matchesRecord])]
  by_cases hpw : cfg.preserveWhitespace = true
  · rw [if_pos (by simp [hpw, hasNonWs])]
    simp
  · rw [if_neg (by simp [hpw, hasNonWs])]

theorem matchesRecord_stringify_obj (v : JsValue) (h : v.isObj = true) :
    matchesRecord (stringifyJson v) = true := by
  cases v with
  | jobj ms =>
    simp only [stringifyJson]
    rfl
  | jnull => simp [JsValue.isObj] at h
  | jbool b => simp [JsValue.isObj] at h
  | jnum n => simp [JsValue.isObj] at h
  | jstr s => simp [JsValue.isObj] at h
  | jarr xs => simp [JsValue.isObj] at h

/-- C4 (confirmed, under the collaborator's correctness): for every value
the writer classifies as structured (a JSON object) and on which the
assumed-correct parse/serialize collaborator pair round-trips, writing the
value and feeding the produced text (serialization plus the shared newline
delimiter) back into a framer yields exactly one `json` notification
deep-equal to the value — and no `text` or `error` notifications — leaving
an empty pending buffer. -/
theorem C4_round_trip {β : Type} (M : Nat) (pw : Bool) (sink : Str → Option β → Bool)
    (cb : Option β) (v : JsValue)
    (hobj : v.isObj = true) (hrt : parseJson (stringifyJson v) = .ok v) :
    (writeJson (fun u => some (stringifyJson u)) sink ['\n'] v cb).written =
      [stringifyJson v ++ ['\n']]
    ∧ handleData ⟨['\n'], M, pw⟩ [] (stringifyJson v ++ ['\n']) = ([Ev.json v], []) := by
  refine ⟨rfl, ?_⟩
  have hnn : '\n' ∉ stringifyJson v := fun hm => stringify_no_newline v '\n' hm rfl
  have hsp : jsSplit ['\n'] (stringifyJson v ++ ['\n']) = [stringifyJson v, []] :=
    jsSplit_append_delim '\n' _ hnn
  have hE : jsEndsWith (stringifyJson v ++ ['\n']) ['\n'] = true :=
    jsEndsWith_append_delim '\n' _
  have hcfg : clampedData ⟨['\n'], M, pw⟩ [] (stringifyJson v ++ ['\n']) =
      [] ++ (stringifyJson v ++ ['\n']) := by simp [clampedData]
  have hcr : chunkRecords ⟨['\n'], M, pw⟩ [] (stringifyJson v ++ ['\n']) =
      ([stringifyJson v, []], []) := by
    rw [chunkRecords_of_clamped _ _ _ hcfg]
    simp only [List.nil_append]
    rw [if_pos hE, hsp]
  have hhd : handleData ⟨['\n'], M, pw⟩ [] (stringifyJson v ++ ['\n']) =
      (processRecords ⟨['\n'], M, pw⟩ [stringifyJson v, []], []) := by
    unfold handleData
    rw [hcr]
  rw [hhd]
  have hpr : processRecords ⟨['\n'], M, pw⟩ [stringifyJson v, []] =
      classifyRecord ⟨['\n'], M, pw⟩ true (stringifyJson v) ++
        (classifyRecord ⟨['\n'], M, pw⟩ false [] ++ []) := rfl
  rw [hpr, classifyRecord_nil_last]
  have hm := matchesRecord_stringify_obj v hobj
  have ht := jsTruthy_of_isObj v hobj
  have hcl : classifyRecord ⟨['\n'], M, pw⟩ true (stringifyJson v) = [Ev.json v] := by
    unfold classifyRecord
    rw [if_pos hm]
    simp only [hrt, ht, if_pos]
  rw [hcl]
  rfl

/-- C4 (witness): the object `{a:1}` round-trips: writing it and feeding the
produced text back yields exactly one `json` event carrying `{a:1}`. -/
theorem C4_witness :
    (JsValue.jobj [("a".toList, .jnum 1)]).isObj = true
    ∧ parseJson (stringifyJson (JsValue.jobj [("a".toList, .jnum 1)])) =
      .ok (JsValue.jobj [("a".toList, .jnum 1)])
    ∧ (writeJson (fun u => some (stringifyJson u)) (fun _ _ => true) ['\n']
        (JsValue.jobj [("a".toList, .jnum 1)]) (none : Option Unit)).written =
      [stringifyJson (JsValue.jobj [("a".toList, .jnum 1)]) ++ ['\n']]
    ∧ handleData ⟨['\n'], 1048576, false⟩ []
        (stringifyJson (JsValue.jobj [("a".toList, .jnum 1)]) ++ ['\n']) =
      ([Ev.json (JsValue.jobj [("a".toList, .jnum 1)])], []) :=
  have h2 : parseJson (stringifyJson (JsValue.jobj [("a".toList, .jnum 1)])) =
      .ok (JsValue.jobj [("a".toList, .jnum 1)]) := by
    rw [show stringifyJson (JsValue.jobj [("a".toList, .jnum 1)]) = "\x7b\"a\":1\x7d".toList by
      simp [stringifyJson, stringifyMembers, escapeString, escapeChar, intToStr, natToStr,
        digitChar]]
    rfl
  have h3 := C4_round_trip 1048576 false (fun _ _ => true) (none : Option Unit)
    (JsValue.jobj [("a".toList, .jnum 1)]) rfl h2
  ⟨rfl, h2, h3.1, h3.2⟩
